import Mathlib

/-!
Verification of the Jarvis intent-classification pipeline and memory/context
subsystem, shallowly embedded from `src/app/enhanced_intent_router.py`,
`src/memory/enhanced_memory.py` and `src/app/enhanced_main.py`.

Conventions of the embedding:
* Python strings are Lean `String`; Python string slicing, lowering, stripping
  and substring tests are re-implemented structurally on `List Char` so that
  every definition evaluates by kernel reduction.
* Python float arithmetic on the confidence scores is modelled with exact
  rationals; all scores in play are small fractions (numerator and denominator
  far below 2^52) on a common denominator, where IEEE double division and
  comparison agree exactly with the rational order.
* The external regular-expression engine (`re.search`, `re.findall`) is an
  external library, not repository code; it is passed in as an oracle
  parameter mapping a pattern source string and a subject string to the match
  result, exactly as the router consumes it.  `ReMatch.group0` plays the role
  of `match.group(0)` and `ReMatch.groups` of `match.groups()`.
* The ChromaDB persistent collection is likewise external: its contents are a
  list of stored entries, and each fallible backend call is represented by an
  `Except` value describing either the reply or a raised exception, which the
  embedded methods consume through the same try/except structure as the
  source.
* `datetime.now()`, `time.time()` and the md5-based id generator are
  nondeterministic effects; they enter the embedded functions as explicit
  arguments (`now`, `tnow`, `memory_id`).
-/

namespace Jarvis

/-! ### Python string primitives -/

/-- The whitespace characters stripped by the Python `str.strip()` default. -/
def pySpace (c : Char) : Bool :=
  c == ' ' || c == '\t' || c == '\n' || c == '\r' || c == '\x0b' || c == '\x0c'

/-- Strip leading and trailing whitespace from a character list. -/
def trimChars (l : List Char) : List Char :=
  ((l.dropWhile pySpace).reverse.dropWhile pySpace).reverse

/-- Python `s.strip()`. -/
def pyStrip (s : String) : String :=
  ⟨trimChars s.data⟩

/-- Python `s.lower().strip()`: the normalization applied by
`EnhancedIntentRouter.parse_intent` before all tiers. -/
def normalize (s : String) : String :=
  ⟨trimChars (s.data.map Char.toLower)⟩

/-- Python `s[:n]` (slice by code points). -/
def pyTake (n : Nat) (s : String) : String :=
  ⟨s.data.take n⟩

/-- Does `pre` start the list `l`?  (Helper for the substring test.) -/
def startsWithChars : List Char → List Char → Bool
  | [], _ => true
  | _ :: _, [] => false
  | a :: as, b :: bs => a == b && startsWithChars as bs

/-- Is `nd` a contiguous sublist of `hay`? -/
def hasSubChars (nd : List Char) : List Char → Bool
  | [] => startsWithChars nd []
  | c :: t => startsWithChars nd (c :: t) || hasSubChars nd t

/-- Python `needle in hay` on strings. -/
def pyIn (needle hay : String) : Bool :=
  hasSubChars needle.data hay.data

/-- Digit accumulation for `pyInt`, allowing single underscores between
digits as Python `int()` does. -/
def digitsCore : Nat → List Char → Option Nat
  | acc, [] => some acc
  | acc, c :: rest =>
    if c.isDigit then digitsCore (acc * 10 + (c.toNat - 48)) rest
    else if c == '_' then
      match rest with
      | d :: _ => if d.isDigit then digitsCore acc rest else none
      | [] => none
    else none

/-- A digit run must start with a digit. -/
def digitsStart : List Char → Option Nat
  | [] => none
  | c :: rest => if c.isDigit then digitsCore (c.toNat - 48) rest else none

/-- Python `int(s)` on a decimal string: surrounding whitespace, an optional
sign, then digits; `none` models the `ValueError` path. -/
def pyInt (s : String) : Option Int :=
  match trimChars s.data with
  | '+' :: rest => (digitsStart rest).map (fun n => (n : Int))
  | '-' :: rest => (digitsStart rest).map (fun n => -(n : Int))
  | rest => (digitsStart rest).map (fun n => (n : Int))

/-- Lexicographic order on code points, i.e. Python string `<=`.  Used to
model `list.sort(key=..., reverse=True)` on ISO timestamp strings. -/
def chLe : List Char → List Char → Bool
  | [], _ => true
  | _ :: _, [] => false
  | a :: as, b :: bs =>
    if a.toNat < b.toNat then true
    else if b.toNat < a.toNat then false
    else chLe as bs

/-! ### The pattern catalog (`EnhancedIntentRouter.__init__`) -/

/-- `self.intent_patterns`: per-intent regular-expression source strings, in
dict insertion order. -/
def intentPatterns : List (String × List String) := [
  ("screen_read", [
    "(what|show|tell).*(on|in).*(screen|display)",
    "(read|scan).*(screen|display)",
    "(what).*(see|visible)",
    "(screen|display).*(content|text|information)"]),
  ("webcam_analyze", [
    "(what|show|tell).*(see|visible).*(camera|webcam)",
    "(analyze|check).*(camera|webcam|video)",
    "(who|what).*(front|back).*(camera)",
    "(camera|webcam).*(scene|view)"]),
  ("type_text", [
    "type\\s*[:.]?\\s*(.+)",
    "write\\s*[:.]?\\s*(.+)",
    "enter\\s*[:.]?\\s*(.+)",
    "input\\s*[:.]?\\s*(.+)"]),
  ("click", [
    "click\\s+(?:at\\s+)?(\\d+)\\s*[,.]?\\s*(\\d+)",
    "click\\s+(?:position\\s+)?(\\d+)\\s*[,.]?\\s*(\\d+)",
    "click\\s+(?:coordinates\\s+)?(\\d+)\\s*[,.]?\\s*(\\d+)"]),
  ("move_mouse", [
    "move\\s+(?:mouse\\s+)?(?:to\\s+)?(\\d+)\\s*[,.]?\\s*(\\d+)",
    "position\\s+(?:mouse\\s+)?(?:at\\s+)?(\\d+)\\s*[,.]?\\s*(\\d+)",
    "go\\s+(?:to\\s+)?(\\d+)\\s*[,.]?\\s*(\\d+)"]),
  ("search_web", [
    "(search|find|look\\s+up).*(?:for\\s+)?(.+)",
    "(google|bing|search\\s+engine).*(.+)",
    "(web\\s+search|internet\\s+search).*(.+)"]),
  ("open_app", [
    "open\\s+(.+)",
    "launch\\s+(.+)",
    "start\\s+(.+)",
    "run\\s+(.+)"]),
  ("file_operation", [
    "(create|make|new)\\s+(file|document|folder).*(.+)",
    "(save|store)\\s+(.+)",
    "(delete|remove)\\s+(.+)",
    "(copy|duplicate)\\s+(.+)"]),
  ("system_control", [
    "(shutdown|turn\\s+off|power\\s+down)",
    "(restart|reboot)",
    "(sleep|suspend)",
    "(volume|sound|mute|unmute)",
    "(brightness|screen\\s+brightness)"]),
  ("memory_query", [
    "(remember|recall|what\\s+did).*(we\\s+talk|conversation)",
    "(history|past|previous).*(conversation|talk)",
    "(memory|memories).*(search|find)"]),
  ("preference_setting", [
    "(set|change|update).*(preference|setting)",
    "(voice|speech|tts).*(rate|speed|volume)",
    "(camera|webcam).*(resolution|quality)"]),
  ("help_request", [
    "(help|assist|support)",
    "(what\\s+can\\s+you\\s+do|capabilities|features)",
    "(how\\s+to|instructions|guide)"]),
  ("general_chat", [
    "(hello|hi|hey|greetings)",
    "(how\\s+are\\s+you|how\\s+you\\s+doing)",
    "(thank\\s+you|thanks|appreciate)",
    "(goodbye|bye|see\\s+you|later)"])]

/-- `self.entity_patterns`: the six entity-extraction regular expressions
(brace characters written as their escapes). -/
def entityPatterns : List (String × String) := [
  ("coordinates", "(\\d+)\\s*[,.]?\\s*(\\d+)"),
  ("url", "https?://[^\\s]+"),
  ("email", "\\b[A-Za-z0-9._%+-]+@[A-Za-z0-9.-]+\\.[A-Z|a-z]\x7b2,\x7d\\b"),
  ("phone", "\\b\\d\x7b3\x7d[-.]?\\d\x7b3\x7d[-.]?\\d\x7b4\x7d\\b"),
  ("time", "\\b\\d\x7b1,2\x7d:\\d\x7b2\x7d\\s*(?:AM|PM)?\\b"),
  ("date", "\\b\\d\x7b1,2\x7d[/-]\\d\x7b1,2\x7d[/-]\\d\x7b2,4\x7d\\b")]

/-- `self.confidence_weights`. -/
def confidenceWeights : List (String × ℚ) := [
  ("exact_match", 1),
  ("pattern_match", 8/10),
  ("keyword_match", 6/10),
  ("partial_match", 4/10)]

/-- Lookup in `self.confidence_weights`. -/
def weightOf (k : String) : ℚ :=
  (List.lookup k confidenceWeights).getD 0

/-- The exact-phrase table of `_check_exact_matches`, in dict insertion
order: phrase, intent type, optional subtype. -/
def exactPhrases : List (String × String × Option String) := [
  ("what\x27s on my screen", ("screen_read", none)),
  ("read screen", ("screen_read", none)),
  ("take screenshot", ("screen_read", none)),
  ("what do you see", ("webcam_analyze", none)),
  ("camera view", ("webcam_analyze", none)),
  ("help", ("help_request", none)),
  ("what can you do", ("help_request", none)),
  ("goodbye", ("general_chat", some "farewell")),
  ("thank you", ("general_chat", some "gratitude"))]

/-- The keyword table of `_check_keyword_matches`, in dict insertion order. -/
def keywordTable : List (String × List String) := [
  ("screen_read", ["screen", "display", "read", "what", "see", "visible"]),
  ("webcam_analyze", ["camera", "webcam", "video", "photo", "picture"]),
  ("type_text", ["type", "write", "enter", "input", "text"]),
  ("click", ["click", "tap", "press", "select"]),
  ("move_mouse", ["move", "position", "go", "mouse", "cursor"]),
  ("search_web", ["search", "find", "google", "look", "web"]),
  ("open_app", ["open", "launch", "start", "run", "app", "program"]),
  ("file_operation", ["file", "document", "folder", "save", "delete", "copy"]),
  ("system_control", ["shutdown", "restart", "volume", "brightness", "system"]),
  ("memory_query", ["remember", "recall", "history", "memory", "past"]),
  ("preference_setting", ["preference", "setting", "configure", "voice", "camera"]),
  ("help_request", ["help", "assist", "support", "how", "what"]),
  ("general_chat", ["hello", "hi", "how", "thank", "goodbye", "bye"])]

/-- The description table of `get_intent_description`. -/
def descTable : List (String × String) := [
  ("screen_read", "Read and analyze screen content"),
  ("webcam_analyze", "Analyze webcam feed"),
  ("type_text", "Type text input"),
  ("click", "Click at coordinates"),
  ("move_mouse", "Move mouse cursor"),
  ("search_web", "Search the web"),
  ("open_app", "Open application"),
  ("file_operation", "Perform file operations"),
  ("system_control", "Control system settings"),
  ("memory_query", "Query conversation history"),
  ("preference_setting", "Change user preferences"),
  ("help_request", "Request help or information"),
  ("general_chat", "General conversation"),
  ("unknown", "Unknown or unclear intent")]

/-- The suggestion table of `get_suggested_actions`. -/
def suggestTable : List (String × List String) := [
  ("screen_read", ["Take a screenshot", "Extract text from screen", "Analyze screen content"]),
  ("webcam_analyze", ["Capture webcam frame", "Detect faces in view", "Analyze scene content"]),
  ("type_text", ["Extract text to type", "Confirm text content", "Execute typing action"]),
  ("click", ["Validate coordinates", "Execute click action", "Provide feedback"]),
  ("help_request", ["Show available commands", "Explain capabilities", "Provide usage examples"])]

/-- `get_intent_description`: table lookup with default. -/
def getIntentDescription (intentType : String) : String :=
  (List.lookup intentType descTable).getD "Unknown intent"

/-- `get_suggested_actions`: table lookup with default empty list. -/
def getSuggestedActions (intentType : String) : List String :=
  (List.lookup intentType suggestTable).getD []

/-! ### The intent router (`parse_intent` and its tiers) -/

/-- The result of a successful `re.search` call: `group0` is
`match.group(0)` and `groups` is `match.groups()` (none of the catalog
patterns has an optional capture group, so all groups are strings). -/
structure ReMatch where
  group0 : String
  groups : List String
deriving DecidableEq, Repr

/-- The winning entry tracked by `_check_pattern_matches`:
`type`, `match.group(0)` and `match.groups()` of the best pattern
(the dict keys `match` and `groups` become `pmatch` and `pgroups`). -/
structure PatternBest where
  type : String
  pmatch : String
  pgroups : List String
deriving DecidableEq, Repr

/-- The intent-specific slot dict built by `_extract_intent_data`; absent
dict keys are `none`. -/
structure SlotData where
  x : Option Int := none
  y : Option Int := none
  text : Option String := none
  query : Option String := none
  app_name : Option String := none
  operation : Option String := none
  target : Option String := none
deriving DecidableEq, Repr

/-- The dict returned by `parse_intent`.  Keys that a given path never sets
stay at their defaults; `entities` keeps dict insertion order as an
association list, and each `re.findall` hit is a list of captured strings.
The wall-clock `timestamp` key is not modelled. -/
structure IntentResult where
  type : String := "unknown"
  subtype : Option String := none
  confidence : ℚ := 0
  entities : List (String × List (List String)) := []
  raw_text : String := ""
  pmatch : Option String := none
  pgroups : Option (List String) := none
  keyword_score : Option ℚ := none
  x : Option Int := none
  y : Option Int := none
  text : Option String := none
  query : Option String := none
  app_name : Option String := none
  operation : Option String := none
  target : Option String := none
deriving DecidableEq, Repr

/-- `_check_exact_matches`: first phrase equal to the normalized text. -/
def checkExactMatches (t : String) : Option (String × Option String) :=
  (exactPhrases.find? (fun p => p.1 == t)).map (fun p => p.2)

/-- The flattened catalog: every (intent type, pattern) pair in the order
the two nested loops of `_check_pattern_matches` visit them. -/
def catalogPairs : List (String × String) :=
  (intentPatterns.map (fun p => p.2.map (fun pat => (p.1, pat)))).flatten

/-- The confidence ratio `len(match.group(0)) / len(text)` computed for each
matching pattern, as an exact rational. -/
def ratioQ (t : String) (m : ReMatch) : ℚ :=
  (m.group0.length : ℚ) / (t.length : ℚ)

/-- The float scores the router compares are always fractions of natural
numbers with positive denominator; they are carried unreduced as
numerator/denominator pairs, and `a > b` is the exact cross-multiplied
comparison (for the magnitudes in play, IEEE double division and comparison
agree with the exact rational order). -/
def fracGt (a b : Nat × Nat) : Bool :=
  decide (b.1 * a.2 < a.1 * b.2)

/-- The rational value of a numerator/denominator pair. -/
def fracQ (p : Nat × Nat) : ℚ :=
  (p.1 : ℚ) / (p.2 : ℚ)

/-- One step of the best-match loop of `_check_pattern_matches`: the
accumulator carries `best_match` and `best_confidence`
(`len(match.group(0)) / len(text)`), updated only on a strictly larger
ratio. -/
def patternStep (rs : String → String → Option ReMatch) (t : String)
    (acc : Option PatternBest × (Nat × Nat)) (p : String × String) :
    Option PatternBest × (Nat × Nat) :=
  match rs p.2 t with
  | none => acc
  | some m =>
    let conf := (m.group0.length, t.length)
    if fracGt conf acc.2 then (some ⟨p.1, m.group0, m.groups⟩, conf) else acc

/-- The double loop of `_check_pattern_matches` with `best_match = None`,
`best_confidence = 0.0` initial state; returns the best match. -/
def checkPatternMatches (rs : String → String → Option ReMatch) (t : String) :
    Option PatternBest :=
  (catalogPairs.foldl (patternStep rs t) (none, (0, 1))).1

/-- `_extract_intent_data`: per-intent slot extraction from the capture
groups of the winning pattern.  For `click` and `move_mouse` a failing
`int()` on the second group still leaves the first assignment in place,
exactly as the `try` block in the source does. -/
def extractIntentData (intentType : String) (groups : List String) : SlotData :=
  if intentType == "type_text" then
    match groups with
    | g :: _ => { text := some (pyStrip g) }
    | [] => {}
  else if intentType == "click" then
    match groups with
    | g0 :: g1 :: _ =>
      match pyInt g0 with
      | none => {}
      | some xv =>
        match pyInt g1 with
        | none => { x := some xv }
        | some yv => { x := some xv, y := some yv }
    | _ => {}
  else if intentType == "move_mouse" then
    match groups with
    | g0 :: g1 :: _ =>
      match pyInt g0 with
      | none => {}
      | some xv =>
        match pyInt g1 with
        | none => { x := some xv }
        | some yv => { x := some xv, y := some yv }
    | _ => {}
  else if intentType == "search_web" then
    match groups.getLast? with
    | some g => { query := some (pyStrip g) }
    | none => {}
  else if intentType == "open_app" then
    match groups with
    | g :: _ => { app_name := some (pyStrip g) }
    | [] => {}
  else if intentType == "file_operation" then
    match groups with
    | g0 :: g1 :: _ => { operation := some (pyStrip g0), target := some (pyStrip g1) }
    | [g0] => { operation := some (pyStrip g0) }
    | [] => {}
  else {}

/-- `score` accumulation of `_check_keyword_matches`: how many of the
keywords are substrings of the text. -/
def countKeywords (t : String) (kws : List String) : Nat :=
  kws.foldl (fun s k => if pyIn k t then s + 1 else s) 0

/-- One step of the best-score loop of `_check_keyword_matches`; the
accumulator carries `best_intent` and `best_score`, the latter the
normalized score `score / len(intent_keywords)`. -/
def kwStep (t : String) (acc : Option String × (Nat × Nat)) (p : String × List String) :
    Option String × (Nat × Nat) :=
  let score := countKeywords t p.2
  if score > 0 then
    let ns := (score, p.2.length)
    if fracGt ns acc.2 then (some p.1, ns) else acc
  else acc

/-- The loop of `_check_keyword_matches` over the keyword table with
`best_intent = None`, `best_score = 0.0` initial state. -/
def keywordFold (t : String) : Option String × (Nat × Nat) :=
  keywordTable.foldl (kwStep t) (none, (0, 1))

/-- `_check_keyword_matches`: the best intent when
`best_intent and best_score > 0.3`. -/
def checkKeywordMatches (t : String) : Option (String × (Nat × Nat)) :=
  match keywordFold t with
  | (some it, bs) => if fracGt bs (3, 10) then some (it, bs) else none
  | (none, _) => none

/-- `_extract_entities`: run all six entity patterns through `re.findall`
(the `fa` oracle, returning the non-overlapping matches as capture lists)
and keep each pattern with a non-empty result, in table order. -/
def extractEntities (fa : String → String → List (List String)) (t : String) :
    List (String × List (List String)) :=
  entityPatterns.foldl
    (fun acc p =>
      let ms := fa p.2 t
      if ms.isEmpty then acc else acc ++ [(p.1, ms)]) []

/-- `parse_intent`: normalize, then the four-tier cascade — exact match
(confidence 1.0), pattern match (0.8), keyword match (0.6), fallback with
entity extraction (0.0). -/
def parseIntent (rs : String → String → Option ReMatch)
    (fa : String → String → List (List String)) (input : String) : IntentResult :=
  let t := normalize input
  let result : IntentResult := { type := "unknown", confidence := 0, raw_text := t }
  match checkExactMatches t with
  | some pr => { result with type := pr.1, subtype := pr.2, confidence := weightOf "exact_match" }
  | none =>
    match checkPatternMatches rs t with
    | some b =>
      let d := extractIntentData b.type b.pgroups
      { result with
          type := b.type, pmatch := some b.pmatch, pgroups := some b.pgroups,
          x := d.x, y := d.y, text := d.text, query := d.query,
          app_name := d.app_name, operation := d.operation, target := d.target,
          confidence := weightOf "pattern_match" }
    | none =>
      match checkKeywordMatches t with
      | some kw =>
        { result with type := kw.1, keyword_score := some (fracQ kw.2),
                      confidence := weightOf "keyword_match" }
      | none => { result with entities := extractEntities fa t }

/-- The validation dict of `validate_intent`. -/
structure ValidationResult where
  is_valid : Bool
  warnings : List String
  suggestions : List String
deriving DecidableEq, Repr

/-- `validate_intent`: pure per-kind checks on an intent record, then the
static suggestions; the record itself is never changed. -/
def validateIntent (intent : IntentResult) : ValidationResult :=
  let vr : ValidationResult := ⟨true, [], []⟩
  let vr :=
    if intent.type == "click" then
      match intent.x, intent.y with
      | some xv, some yv =>
        if !(0 ≤ xv && xv ≤ 3000 && 0 ≤ yv && yv ≤ 2000) then
          { vr with warnings := vr.warnings ++ ["Coordinates may be outside screen bounds"] }
        else vr
      | _, _ =>
        { vr with is_valid := false,
                  warnings := vr.warnings ++ ["Missing coordinates for click action"] }
    else if intent.type == "type_text" then
      let tx := intent.text.getD ""
      if tx == "" then
        { vr with is_valid := false,
                  warnings := vr.warnings ++ ["No text specified for typing"] }
      else if tx.length > 1000 then
        { vr with warnings := vr.warnings ++ ["Text is very long, consider breaking it up"] }
      else vr
    else if intent.type == "search_web" then
      let q := intent.query.getD ""
      if q == "" then
        { vr with is_valid := false,
                  warnings := vr.warnings ++ ["No search query specified"] }
      else vr
    else vr
  { vr with suggestions := getSuggestedActions intent.type }

/-! ### Specification-side helpers used to state the router claims -/

/-- All (intent type, match) pairs the pattern tier sees for text `t`, in
catalog iteration order. -/
def matchedPatterns (rs : String → String → Option ReMatch) (t : String) :
    List (String × ReMatch) :=
  catalogPairs.filterMap (fun p => (rs p.2 t).map (fun m => (p.1, m)))

/-- The largest confidence ratio among a list of matches (0 if none). -/
def maxRatio (t : String) (ms : List (String × ReMatch)) : ℚ :=
  ms.foldr (fun im acc => max (ratioQ t im.2) acc) 0

/-! ### The memory store (`EnhancedMemory`) -/

/-- The metadata dict attached to a stored memory; every key the store ever
writes, each optional (the dict key `type` becomes `vtype`). -/
structure MemMeta where
  category : Option String := none
  timestamp : Option String := none
  content_length : Option Nat := none
  speaker : Option String := none
  turn : Option String := none
  source : Option String := none
  vtype : Option String := none
deriving DecidableEq, Repr

/-- Key-by-key dict update: keys present in `upd` overwrite `base`. -/
def updField {α : Type} (b u : Option α) : Option α :=
  match u with
  | some v => some v
  | none => b

/-- Python `base.update(upd)` on two metadata dicts. -/
def metaUpdate (base upd : MemMeta) : MemMeta where
  category := updField base.category upd.category
  timestamp := updField base.timestamp upd.timestamp
  content_length := updField base.content_length upd.content_length
  speaker := updField base.speaker upd.speaker
  turn := updField base.turn upd.turn
  source := updField base.source upd.source
  vtype := updField base.vtype upd.vtype

/-- One record of the persistent collection: id, document, metadata. -/
structure StoredEntry where
  id : String
  content : String
  metadata : MemMeta
deriving DecidableEq, Repr

/-- One record of the in-process conversation buffer
(content, metadata, `time.time()` stamp). -/
structure BufEntry where
  content : String
  metadata : MemMeta
  timestamp : ℚ
deriving DecidableEq, Repr

/-- The mutable state of `EnhancedMemory`: the ChromaDB collection
(`none` when `_init_database` failed), the conversation buffer, and the
configured `max_buffer_size`. -/
structure MemState where
  collection : Option (List StoredEntry)
  conversation_buffer : List BufEntry
  max_buffer_size : Nat
deriving DecidableEq, Repr

/-- The last `n` elements of a list (`l[len-n:]` for positive `n`). -/
def listTakeLast {α : Type} (n : Nat) (l : List α) : List α :=
  l.drop (l.length - n)

/-- Python `l[-n:]` for a natural `n`: for `n = 0` the slice is `l[0:]`,
the whole list, an important edge case of the buffer trim. -/
def pySliceLast {α : Type} (n : Nat) (l : List α) : List α :=
  if n == 0 then l else listTakeLast n l

/-- `_add_to_buffer`: append, then trim with
`self.conversation_buffer[-self.max_buffer_size:]` when over capacity. -/
def addToBuffer (maxBuf : Nat) (buf : List BufEntry) (e : BufEntry) : List BufEntry :=
  let b := buf ++ [e]
  if b.length > maxBuf then pySliceLast maxBuf b else b

/-- `add_memory`: no-op returning the sentinel id `None` when the collection
is unavailable or `collection.add` raises (`addThrows`); otherwise append the
entry, mirror `conversation` entries into the buffer, and return the id.
`now` is the ISO `datetime.now()` string, `tnow` the `time.time()` float,
`memory_id` the `_generate_id` output. -/
def addMemory (st : MemState) (now : String) (tnow : ℚ) (memory_id : String)
    (addThrows : Bool) (content : String) (category : String) (metadata : MemMeta) :
    Option String × MemState :=
  match st.collection with
  | none => (none, st)
  | some coll =>
    let meta := metaUpdate
      { category := some category, timestamp := some now,
        content_length := some content.length } metadata
    if addThrows then (none, st)
    else
      let coll2 := coll ++ [⟨memory_id, content, meta⟩]
      let buf2 :=
        if category == "conversation" then
          addToBuffer st.max_buffer_size st.conversation_buffer ⟨content, meta, tnow⟩
        else st.conversation_buffer
      (some memory_id, { st with collection := some coll2, conversation_buffer := buf2 })

/-- `add_conversation`: two `add_memory` calls, speaker-tagged. -/
def addConversation (st : MemState) (now1 now2 : String) (t1 t2 : ℚ)
    (id1 id2 : String) (th1 th2 : Bool) (user_input assistant_response : String) :
    MemState :=
  let st1 := (addMemory st now1 t1 id1 th1 ("User: " ++ user_input) "conversation"
    { speaker := some "user", turn := some "input" }).2
  (addMemory st1 now2 t2 id2 th2 ("Assistant: " ++ assistant_response) "conversation"
    { speaker := some "assistant", turn := some "response" }).2

/-- The reply of `collection.query` for the single query text: the inner
parallel arrays `documents[0]`, `metadatas[0]`, `ids[0]`, and `distances`
(absent when the backend returned `None`). -/
structure QueryReply where
  documents : List String
  metadatas : List MemMeta
  ids : List String
  distances : Option (List ℚ)
deriving DecidableEq, Repr

/-- One formatted search hit, as `search_memories` builds it. -/
structure FoundMemory where
  content : String
  metadata : MemMeta
  id : String
  distance : Option ℚ
deriving DecidableEq, Repr

/-- Build the hit for index `i`; `none` models the `IndexError` a
mismatched parallel array would raise inside the `try` block. -/
def buildFound (r : QueryReply) (i : Nat) (doc : String) : Option FoundMemory :=
  match r.metadatas[i]?, r.ids[i]? with
  | some md, some mid =>
    match r.distances with
    | none => some ⟨doc, md, mid, none⟩
    | some ds => (ds[i]?).map (fun dv => ⟨doc, md, mid, some dv⟩)
  | _, _ => none

/-- The `for i, doc in enumerate(results)` formatting loop; any raised
`IndexError` aborts the whole loop. -/
def collectFound (r : QueryReply) : Nat → List String → Option (List FoundMemory)
  | _, [] => some []
  | i, doc :: rest =>
    match buildFound r i doc with
    | none => none
    | some fm =>
      match collectFound r (i + 1) rest with
      | none => none
      | some tl => some (fm :: tl)

/-- `search_memories`: empty when the collection is unavailable, when the
backend call raises (`reply` is an error), or when the reply carries no
documents; otherwise the formatted hits.  The query text, category filter
and `n_results` are forwarded to the backend and therefore only shape
`reply`. -/
def searchMemories (st : MemState) (query : String) (category : Option String)
    (n_results : Nat) (reply : Except String QueryReply) : List FoundMemory :=
  match st.collection with
  | none => []
  | some _ =>
    match reply with
    | .error _ => []
    | .ok r =>
      if r.documents.isEmpty then []
      else
        match collectFound r 0 r.documents with
        | some ms => ms
        | none => []

/-- The sort key of `get_recent_memories`: the metadata timestamp with the
empty string as the missing-key default. -/
def tsKeyOf (e : StoredEntry) : String :=
  e.metadata.timestamp.getD ""

/-- `get_recent_memories`: fetch everything (`getReply` stands for
`collection.get()`, an error being a raised exception), filter by category
when given, sort by timestamp newest first (Python stable sort with
`reverse=True`), truncate to `limit`. -/
def getRecentMemories (st : MemState) (getReply : Except String (List StoredEntry))
    (category : Option String) (limit : Nat) : List StoredEntry :=
  match st.collection with
  | none => []
  | some _ =>
    match getReply with
    | .error _ => []
    | .ok results =>
      let memories :=
        match category with
        | some c => results.filter (fun (e : StoredEntry) => e.metadata.category == some c)
        | none => results
      let sorted := memories.mergeSort (fun a b => chLe (tsKeyOf b).data (tsKeyOf a).data)
      sorted.take limit

/-! ### The context composer -/

/-- `get_context_for_conversation`: relevant past conversation memories
(via `search_memories` on the `conversation` category), then the last
`max_context` buffer entries, each previewed to 200 characters; headers
only for non-empty sections. -/
def getContextForConversation (st : MemState) (reply : Except String QueryReply)
    (current_query : String) (max_context : Nat) : String :=
  let relevant_memories := searchMemories st current_query (some "conversation") max_context reply
  let recent_buffer :=
    if st.conversation_buffer.isEmpty then []
    else pySliceLast max_context st.conversation_buffer
  let context_parts : List String := []
  let context_parts :=
    if relevant_memories.isEmpty then context_parts
    else (context_parts ++ ["Relevant past conversations:"])
      ++ relevant_memories.map (fun m => "- " ++ pyTake 200 m.content ++ "...")
  let context_parts :=
    if recent_buffer.isEmpty then context_parts
    else (context_parts ++ ["\nRecent conversation:"])
      ++ recent_buffer.map (fun e => "- " ++ pyTake 200 e.content ++ "...")
  String.intercalate "\n" context_parts

/-- `_build_context` from `enhanced_main.py`: memory context, current
webcam observation (only when a webcam exists, the intent is not
`webcam_analyze`, and the scene is not the unavailability sentinel), tool
result (a `None` or empty string is falsy and skipped), and always the
detected-intent description; sections joined by blank lines. -/
def buildContext (memory_context : String) (webcamAvail : Bool)
    (webcam_context : String) (intentType : String) (tool_result : Option String) :
    String :=
  let context_parts : List String := []
  let context_parts :=
    if memory_context == "" then context_parts
    else context_parts ++ ["Memory Context:\n" ++ memory_context]
  let context_parts :=
    if webcamAvail && !(intentType == "webcam_analyze") then
      if webcam_context == "No webcam feed available" then context_parts
      else context_parts ++ ["Current Webcam: " ++ webcam_context]
    else context_parts
  let context_parts :=
    if (tool_result.getD "") == "" then context_parts
    else context_parts ++ ["Tool Result: " ++ tool_result.getD ""]
  let context_parts := context_parts ++ ["Detected Intent: " ++ getIntentDescription intentType]
  String.intercalate "\n\n" context_parts

/-- The composed context of one turn: `_build_context` applied to the
memory context of `get_context_for_conversation` (default
`max_context = 5`). -/
def composeTurnContext (st : MemState) (reply : Except String QueryReply)
    (user_input : String) (webcamAvail : Bool) (webcam_context : String)
    (intentType : String) (tool_result : Option String) : String :=
  buildContext (getContextForConversation st reply user_input 5)
    webcamAvail webcam_context intentType tool_result

/-! ### Further specification-side helpers -/

/-- The length of the matched substring of a pattern hit. -/
def matchLen (im : String × ReMatch) : Nat :=
  im.2.group0.length

/-- The longest matched substring length among a list of hits (0 if none). -/
def maxLen (ms : List (String × ReMatch)) : Nat :=
  ms.foldr (fun im acc => max (matchLen im) acc) 0

/-- The normalized keyword score of one intent of the keyword table, as a
rational: matching-keyword count over configured-keyword count. -/
def kwScoreQ (t : String) (p : String × List String) : ℚ :=
  (countKeywords t p.2 : ℚ) / (p.2.length : ℚ)

/-- Code-point lexicographic order on strings, the order Python uses to
compare the ISO timestamp strings. -/
def lexLe (s1 s2 : String) : Prop :=
  chLe s1.data s2.data = true

/-- The (intent type, match) pairs an arbitrary pattern list yields for
text `t`, in list order. -/
def matchedOf (rs : String → String → Option ReMatch) (t : String)
    (l : List (String × String)) : List (String × ReMatch) :=
  l.filterMap (fun p => (rs p.2 t).map (fun m => (p.1, m)))

/-- The best-match fold of `_check_pattern_matches`, viewed on the list of
matches it actually sees. -/
def bestFold (t : String) (acc : Option PatternBest × (Nat × Nat))
    (ms : List (String × ReMatch)) : Option PatternBest × (Nat × Nat) :=
  ms.foldl (fun acc im =>
    if fracGt (matchLen im, t.length) acc.2
    then (some ⟨im.1, im.2.group0, im.2.groups⟩, (matchLen im, t.length))
    else acc) acc

/-! ## Theorems -/

/-- Unfolding the exact-match branch of `parse_intent`. -/
theorem parseIntent_exact (rs : String → String → Option ReMatch)
    (fa : String → String → List (List String)) (input : String)
    (pr : String × Option String) (h : checkExactMatches (normalize input) = some pr) :
    parseIntent rs fa input =
      { type := pr.1, subtype := pr.2, confidence := 1, raw_text := normalize input } := by
  simp only [parseIntent, h]
  rfl

/-- A successful lookup comes from a pair of the table. -/
theorem lookup_mem {α β : Type} [BEq α] [LawfulBEq α] {k : α} {v : β} :
    ∀ {l : List (α × β)}, List.lookup k l = some v → (k, v) ∈ l := by
  intro l
  induction l with
  | nil => intro h; simp [List.lookup] at h
  | cons a tl ih =>
    intro h
    rw [List.lookup] at h
    by_cases hk : (k == a.1) = true
    · rw [hk] at h
      have h1 : a.1 = k := (beq_iff_eq.mp hk).symm
      have h2 : a.2 = v := Option.some.inj h
      cases a
      simp_all
    · rw [Bool.not_eq_true] at hk
      rw [hk] at h
      right
      exact ih h

/-- The keys of the exact-phrase table are pairwise distinct. -/
theorem exactPhrases_nodup : (exactPhrases.map (fun p => p.1)).Nodup := by
  decide

/-- C4: whenever the normalized (lower-cased, trimmed) input equals a
cataloged exact phrase, `parse_intent` returns the kind and subtype of that
phrase with confidence exactly 1.0 — for every regex and findall oracle,
i.e. regardless of what the pattern and keyword tiers would say, which is
the precedence of the exact tier. -/
theorem exact_match_tier_precedence (rs : String → String → Option ReMatch)
    (fa : String → String → List (List String)) (input phrase ty : String)
    (sub : Option String) (hmem : (phrase, (ty, sub)) ∈ exactPhrases)
    (heq : normalize input = phrase) :
    parseIntent rs fa input =
      { type := ty, subtype := sub, confidence := 1, raw_text := normalize input } := by
  have h : checkExactMatches (normalize input) = some (ty, sub) := by
    rw [heq]
    simp only [exactPhrases, List.mem_cons, List.not_mem_nil, or_false, Prod.mk.injEq] at hmem
    rcases hmem with h|h|h|h|h|h|h|h|h <;>
      (obtain ⟨e1, e2, e3⟩ := h; subst e1; subst e2; subst e3; rfl)
  exact parseIntent_exact rs fa input (ty, sub) h

/-- Witness for C4 at the phrase "thank you", with oracles that would
report a pattern match and entities if those tiers were consulted. -/
theorem exact_match_tier_precedence_witness :
    ("thank you", ("general_chat", some "gratitude")) ∈ exactPhrases
    ∧ normalize " Thank You " = "thank you"
    ∧ parseIntent (fun _ _ => some ⟨"zz", []⟩) (fun _ _ => [["9", "9"]]) " Thank You " =
        { type := "general_chat", subtype := some "gratitude", confidence := 1,
          raw_text := "thank you" } := by
  refine ⟨by decide, by decide, ?_⟩
  have h := exact_match_tier_precedence (fun _ _ => some ⟨"zz", []⟩)
    (fun _ _ => [["9", "9"]]) " Thank You " "thank you" "general_chat"
    (some "gratitude") (by decide) (by decide)
  have hn : normalize " Thank You " = "thank you" := by decide
  rw [hn] at h
  exact h

/-- C5: for a click record, `validate_intent` is invalid exactly when a
coordinate slot is missing; with both coordinates present but outside
x ∈ [0,3000], y ∈ [0,2000] the record stays valid and a bounds warning is
emitted.  `validate_intent` is embedded as a pure function of the record,
so the input record itself is untouched. -/
theorem click_validation (r : IntentResult) (hty : r.type = "click") :
    ((validateIntent r).is_valid = false ↔ (r.x = none ∨ r.y = none))
    ∧ (∀ xv yv : Int, r.x = some xv → r.y = some yv →
        ¬(0 ≤ xv ∧ xv ≤ 3000 ∧ 0 ≤ yv ∧ yv ≤ 2000) →
        (validateIntent r).is_valid = true
        ∧ "Coordinates may be outside screen bounds" ∈ (validateIntent r).warnings) := by
  constructor
  · cases hx : r.x with
    | none => simp [validateIntent, hty, hx]
    | some xv =>
      cases hy : r.y with
      | none => simp [validateIntent, hty, hx, hy]
      | some yv =>
        simp only [validateIntent, hty, hx, hy]
        split
        · split <;> simp [hx, hy]
        · simp_all
  · intro xv yv hx hy hb
    constructor
    · simp only [validateIntent, hty, hx, hy]
      split
      · split <;> rfl
      · rfl
    · simp only [validateIntent, hty, hx, hy]
      split
      · split
        · simp
        · next hc =>
          exfalso
          apply hb
          simp at hc
          tauto
      · next hc => simp at hc

/-- Witness for C5 at the spec example x = 5000, y = 100. -/
theorem click_validation_witness :
    ({ type := "click", x := some 5000, y := some 100 } : IntentResult).type = "click"
    ∧ (validateIntent { type := "click", x := some 5000, y := some 100 }).is_valid = true
    ∧ "Coordinates may be outside screen bounds"
        ∈ (validateIntent { type := "click", x := some 5000, y := some 100 }).warnings := by
  have h := click_validation { type := "click", x := some 5000, y := some 100 } rfl
  have h2 := h.2 5000 100 rfl rfl (by decide)
  exact ⟨rfl, h2.1, h2.2⟩

/-- C10 (implicit): any record classified by the exact, pattern or keyword
tier (kind not `unknown`) carries an empty `entities` mapping — entity
extraction runs only on the fallback path. -/
theorem classified_intents_have_no_entities (rs : String → String → Option ReMatch)
    (fa : String → String → List (List String)) (input : String)
    (h : (parseIntent rs fa input).type ≠ "unknown") :
    (parseIntent rs fa input).entities = [] := by
  cases he : checkExactMatches (normalize input) with
  | some pr => simp [parseIntent, he]
  | none =>
    cases hp : checkPatternMatches rs (normalize input) with
    | some b => simp [parseIntent, he, hp]
    | none =>
      cases hk : checkKeywordMatches (normalize input) with
      | some kw => simp [parseIntent, he, hp, hk]
      | none =>
        exact absurd (by simp [parseIntent, he, hp, hk]) h

/-- Witness for C10: the exact phrase "help" classified while the findall
oracle would report entity captures. -/
theorem classified_intents_have_no_entities_witness :
    (parseIntent (fun _ _ => none) (fun _ _ => [["5", "4"]]) "help").type ≠ "unknown"
    ∧ (parseIntent (fun _ _ => none) (fun _ _ => [["5", "4"]]) "help").entities = [] :=
  ⟨by decide, classified_intents_have_no_entities _ _ _ (by decide)⟩

/-- The entity-extraction loop collects, in table order, exactly the
patterns with a non-empty findall result. -/
theorem extractEntities_eq_filterMap (fa : String → String → List (List String))
    (t : String) :
    extractEntities fa t = entityPatterns.filterMap
      (fun p => if fa p.2 t = [] then none else some (p.1, fa p.2 t)) := by
  have haux : ∀ (l : List (String × String)) (acc : List (String × List (List String))),
      l.foldl (fun acc p =>
          if fa p.2 t = [] then acc else acc ++ [(p.1, fa p.2 t)]) acc
        = acc ++ l.filterMap
            (fun p => if fa p.2 t = [] then none else some (p.1, fa p.2 t)) := by
    intro l
    induction l with
    | nil => intro acc; simp
    | cons a tl ih =>
      intro acc
      by_cases hm : fa a.2 t = []
      · simp [List.foldl_cons, List.filterMap_cons, hm, ih]
      · simp [List.foldl_cons, List.filterMap_cons, hm, ih]
  unfold extractEntities
  simp only [List.isEmpty_iff]
  rw [haux]
  simp

/-- C3: when no tier matches, `parse_intent` still returns a total record:
kind `unknown`, confidence 0.0, no intent slots, and `entities` exactly the
per-pattern non-overlapping findall results over the six entity patterns
(the oracle `fa` stands for `re.findall`, whose contract is to return the
non-overlapping matches). -/
theorem fallback_unknown_totality (rs : String → String → Option ReMatch)
    (fa : String → String → List (List String)) (input : String)
    (hex : checkExactMatches (normalize input) = none)
    (hpat : checkPatternMatches rs (normalize input) = none)
    (hkw : checkKeywordMatches (normalize input) = none) :
    parseIntent rs fa input =
      { type := "unknown", confidence := 0, raw_text := normalize input,
        entities := extractEntities fa (normalize input) }
    ∧ (parseIntent rs fa input).entities = entityPatterns.filterMap
        (fun p => if fa p.2 (normalize input) = [] then none
                  else some (p.1, fa p.2 (normalize input))) := by
  constructor
  · simp [parseIntent, hex, hpat, hkw]
  · simp [parseIntent, hex, hpat, hkw, extractEntities_eq_filterMap]

/-- Witness for C3: noise text containing a URL; the record is the unknown
fallback and still carries the URL entity. -/
theorem fallback_unknown_totality_witness :
    parseIntent (fun _ _ => none)
        (fun p _ => if p == "https?://[^\\s]+" then [["http://x"]] else [])
        "zqzq http://x"
      = { type := "unknown", confidence := 0, raw_text := "zqzq http://x",
          entities := [("url", [["http://x"]])] }
    ∧ (parseIntent (fun _ _ => none)
        (fun p _ => if p == "https?://[^\\s]+" then [["http://x"]] else [])
        "zqzq http://x").entities = [("url", [["http://x"]])] := by
  have h := fallback_unknown_totality (fun _ _ => none)
    (fun p _ => if p == "https?://[^\\s]+" then [["http://x"]] else [])
    "zqzq http://x" (by decide) (by decide) (by decide)
  constructor
  · rw [h.1]; decide
  · rw [h.2]; decide


/-- The length of the last-`n` slice. -/
theorem length_listTakeLast {α : Type} (n : Nat) (l : List α) :
    (listTakeLast n l).length = min n l.length := by
  simp [listTakeLast, List.length_drop]
  omega

/-- Re-slicing after appending: keeping the last `m` of a list that was
already cut to its last `m` elements and extended agrees with cutting the
uncut extension. -/
theorem listTakeLast_absorb {α : Type} (m : Nat) (xs ys : List α) :
    listTakeLast m (listTakeLast m xs ++ ys) = listTakeLast m (xs ++ ys) := by
  unfold listTakeLast
  rcases le_or_lt xs.length m with h | h
  · have hk : xs.length - m = 0 := Nat.sub_eq_zero_of_le h
    rw [hk, List.drop_zero]
  · have hk : xs.length - m ≤ xs.length := Nat.sub_le _ _
    rw [← List.drop_append_of_le_length hk, List.drop_drop]
    simp only [List.length_drop, List.length_append]
    congr 1
    omega

/-- For a positive capacity, one `_add_to_buffer` step is exactly
"keep the last `m` of the extended buffer". -/
theorem addToBuffer_takeLast (m : Nat) (hm : 1 ≤ m) (b : List BufEntry) (e : BufEntry)
    (hb : b.length ≤ m) : addToBuffer m b e = listTakeLast m (b ++ [e]) := by
  show (if (b ++ [e]).length > m then pySliceLast m (b ++ [e]) else (b ++ [e]))
    = listTakeLast m (b ++ [e])
  by_cases hlen : (b ++ [e]).length > m
  · rw [if_pos hlen]
    unfold pySliceLast
    rw [if_neg (by simp; omega : ¬ (m == 0) = true)]
  · rw [if_neg hlen]
    unfold listTakeLast
    rw [show (b ++ [e]).length - m = 0 by
        simp only [List.length_append, List.length_cons, List.length_nil,
          gt_iff_lt, not_lt] at hlen ⊢
        omega,
      List.drop_zero]

/-- For a positive capacity, folding `_add_to_buffer` from the empty buffer
keeps exactly the last `m` inserted entries, in insertion order. -/
theorem foldl_addToBuffer (m : Nat) (hm : 1 ≤ m) :
    ∀ (es b : List BufEntry), b.length ≤ m →
      List.foldl (addToBuffer m) b es = listTakeLast m (b ++ es) := by
  intro es
  induction es with
  | nil =>
    intro b hb
    have h0 : b.length - m = 0 := by omega
    simp [listTakeLast, h0]
  | cons e tl ih =>
    intro b hb
    rw [List.foldl_cons, addToBuffer_takeLast m hm b e hb]
    have hlen2 : (listTakeLast m (b ++ [e])).length ≤ m := by
      rw [length_listTakeLast]
      omega
    rw [ih _ hlen2, listTakeLast_absorb]
    simp

/-- C6 counterexample: with the configured capacity `max_buffer_size = 0`, a
single conversation-category `add_memory` leaves one buffer entry, because
the Python trim `buf[-0:]` is the whole list; the buffer length exceeds the
configured capacity. -/
theorem conversation_buffer_counterexample :
    ¬ ((addMemory ⟨some [], [], 0⟩ "2024-01-01T00:00:00" 0 "conversation_0_ab" false
          "User: hi" "conversation" {}).2.conversation_buffer.length ≤ 0) := by
  decide

/-- C6 amended: for every positive configured capacity, after any sequence
of buffer insertions starting from the empty buffer the conversation buffer
holds exactly the most recent `m` entries in insertion order (so its length
never exceeds `m` and eviction is oldest-first); and `add_memory` touches
the buffer only by leaving it unchanged or by one `_add_to_buffer` step, so
the characterization covers every `add_conversation` /
conversation-category `add_memory` sequence. -/
theorem conversation_buffer_bound_fifo (m : Nat) (hm : 1 ≤ m) (es : List BufEntry) :
    (List.foldl (addToBuffer m) [] es).length ≤ m
    ∧ List.foldl (addToBuffer m) [] es = listTakeLast m es
    ∧ ∀ (st : MemState) (now : String) (tnow : ℚ) (memory_id : String)
        (addThrows : Bool) (content category : String) (metadata : MemMeta),
        (addMemory st now tnow memory_id addThrows content category
            metadata).2.conversation_buffer = st.conversation_buffer
        ∨ ∃ e, (addMemory st now tnow memory_id addThrows content category
            metadata).2.conversation_buffer
              = addToBuffer st.max_buffer_size st.conversation_buffer e := by
  have hfold := foldl_addToBuffer m hm es [] (by simp)
  simp only [List.nil_append] at hfold
  refine ⟨?_, hfold, ?_⟩
  · rw [hfold, length_listTakeLast]
    omega
  · intro st now tnow memory_id addThrows content category metadata
    cases hc : st.collection with
    | none => left; simp [addMemory, hc]
    | some coll =>
      cases addThrows with
      | true => left; simp [addMemory, hc]
      | false =>
        by_cases hcat : (category == "conversation") = true
        · right
          refine ⟨⟨content,
            metaUpdate
              { category := some category, timestamp := some now,
                content_length := some content.length } metadata, tnow⟩, ?_⟩
          simp [addMemory, hc, hcat]
        · left
          simp only [Bool.not_eq_true] at hcat
          simp [addMemory, hc, hcat]

/-- Witness for the amended C6 at capacity 2 with three insertions: the
buffer keeps the last two entries, in order. -/
theorem conversation_buffer_bound_fifo_witness :
    (List.foldl (addToBuffer 2) [] [⟨"a", {}, 0⟩, ⟨"b", {}, 1⟩, ⟨"c", {}, 2⟩]).length ≤ 2
    ∧ List.foldl (addToBuffer 2) [] [⟨"a", {}, 0⟩, ⟨"b", {}, 1⟩, ⟨"c", {}, 2⟩]
        = listTakeLast 2 [⟨"a", {}, 0⟩, ⟨"b", {}, 1⟩, ⟨"c", {}, 2⟩] := by
  have h := conversation_buffer_bound_fifo 2 (by decide)
    [⟨"a", {}, 0⟩, ⟨"b", {}, 1⟩, ⟨"c", {}, 2⟩]
  exact ⟨h.1, h.2.1⟩

/-- C8: with the collection unavailable both reads return the empty
sequence and `add_memory` is a sentinel no-op on an unchanged state; the
same holds when the underlying backend call raises; and a search whose
reply carries no documents (an empty store) is the empty sequence. -/
theorem memory_store_graceful_degradation
    (buf : List BufEntry) (m : Nat) (now memory_id content category e1 e2 e3 q : String)
    (tnow : ℚ) (metadata : MemMeta) (coll : List StoredEntry)
    (catO : Option String) (n lim : Nat) (r : QueryReply)
    (hr : r.documents = []) :
    (searchMemories ⟨none, buf, m⟩ q catO n (.ok r) = []
      ∧ searchMemories ⟨none, buf, m⟩ q catO n (.error e1) = []
      ∧ getRecentMemories ⟨none, buf, m⟩ (.ok coll) catO lim = []
      ∧ addMemory ⟨none, buf, m⟩ now tnow memory_id false content category metadata
          = (none, ⟨none, buf, m⟩))
    ∧ (searchMemories ⟨some coll, buf, m⟩ q catO n (.error e2) = []
      ∧ getRecentMemories ⟨some coll, buf, m⟩ (.error e3) catO lim = []
      ∧ addMemory ⟨some coll, buf, m⟩ now tnow memory_id true content category metadata
          = (none, ⟨some coll, buf, m⟩))
    ∧ searchMemories ⟨some coll, buf, m⟩ q catO n (.ok r) = [] := by
  refine ⟨⟨rfl, rfl, rfl, rfl⟩, ⟨rfl, rfl, ?_⟩, ?_⟩
  · simp [addMemory]
  · simp [searchMemories, hr]

/-- Witness for C8 on one-element and empty stores. -/
theorem memory_store_graceful_degradation_witness :
    searchMemories ⟨none, [], 50⟩ "q" none 5 (.ok ⟨[], [], [], none⟩) = []
    ∧ addMemory ⟨some [⟨"i", "d", {}⟩], [], 50⟩ "t" 0 "id" true "c" "conversation" {}
        = (none, ⟨some [⟨"i", "d", {}⟩], [], 50⟩)
    ∧ searchMemories ⟨some [⟨"i", "d", {}⟩], [], 50⟩ "q" none 5 (.ok ⟨[], [], [], none⟩) = [] := by
  have h := memory_store_graceful_degradation [] 50 "t" "id" "c" "conversation" "E" "E" "E" "q"
    0 {} [⟨"i", "d", {}⟩] none 5 10 ⟨[], [], [], none⟩ rfl
  exact ⟨h.1.1, h.2.1.2.2, h.2.2⟩

/-- A positive-length slice of a non-empty buffer is non-empty. -/
theorem pySliceLast_ne_nil {α : Type} (n : Nat) (l : List α) (h : l ≠ []) :
    pySliceLast n l ≠ [] := by
  unfold pySliceLast listTakeLast
  by_cases hn : (n == 0) = true
  · simp [hn, h]
  · rw [if_neg hn]
    intro hc
    have hlen := congrArg List.length hc
    simp only [List.length_drop, List.length_nil] at hlen
    have hl : 0 < l.length := List.length_pos.mpr h
    have hn2 : n ≠ 0 := by simpa using hn
    omega


/-- C9: the composed context of a turn is exactly the blank-line join of, in
this fixed order: the memory-context section (itself the newline join of the
relevant-history section before the recent-buffer section, items previewed
to 200 characters), the live webcam section, the tool-result section, and
the detected-intent description; every section with no content contributes
nothing (no empty headers), a webcam observation equal to the sentinel
"No webcam feed available" is treated as absent, and the always-present
intent section is never empty.  (The tool-result section, which the spec
does not enumerate, sits between the webcam and intent sections and is
likewise omitted when empty.) -/
theorem context_composition_order (st : MemState) (reply : Except String QueryReply)
    (user_input : String) (webcamAvail : Bool) (webcam_context intentType : String)
    (tool_result : Option String) :
    composeTurnContext st reply user_input webcamAvail webcam_context intentType tool_result
      = String.intercalate "\n\n"
          ((if getContextForConversation st reply user_input 5 = "" then []
            else ["Memory Context:\n" ++ getContextForConversation st reply user_input 5])
          ++ (if webcamAvail = true ∧ intentType ≠ "webcam_analyze"
                ∧ webcam_context ≠ "No webcam feed available"
              then ["Current Webcam: " ++ webcam_context] else [])
          ++ (if tool_result.getD "" = "" then [] else ["Tool Result: " ++ tool_result.getD ""])
          ++ ["Detected Intent: " ++ getIntentDescription intentType])
    ∧ getContextForConversation st reply user_input 5
      = String.intercalate "\n"
          ((if (searchMemories st user_input (some "conversation") 5 reply).isEmpty then []
            else "Relevant past conversations:"
              :: (searchMemories st user_input (some "conversation") 5 reply).map
                   (fun fm => "- " ++ pyTake 200 fm.content ++ "..."))
          ++ (if st.conversation_buffer.isEmpty then []
              else "\nRecent conversation:"
                :: (pySliceLast 5 st.conversation_buffer).map
                     (fun e => "- " ++ pyTake 200 e.content ++ "...")))
    ∧ getIntentDescription intentType ≠ "" := by
  refine ⟨?_, ?_, ?_⟩
  · unfold composeTurnContext buildContext
    by_cases h1 : getContextForConversation st reply user_input 5 = "" <;>
    by_cases h2 : webcamAvail = true <;>
    by_cases h3 : intentType = "webcam_analyze" <;>
    by_cases h4 : webcam_context = "No webcam feed available" <;>
    by_cases h5 : tool_result.getD "" = "" <;>
    simp [h1, h2, h3, h4, h5]
  · unfold getContextForConversation
    by_cases hrel : (searchMemories st user_input (some "conversation") 5 reply).isEmpty = true <;>
    by_cases hbuf : st.conversation_buffer.isEmpty = true
    · simp [hrel, hbuf, List.isEmpty_iff.mp hrel, List.isEmpty_iff.mp hbuf]
    · have hne : st.conversation_buffer ≠ [] := by
        intro hc; rw [hc] at hbuf; simp at hbuf
      have hslice := pySliceLast_ne_nil 5 st.conversation_buffer hne
      simp [hrel, hbuf, List.isEmpty_iff.mp hrel, hne, hslice,
        List.isEmpty_iff]
    · simp [hrel, hbuf, List.isEmpty_iff.mp hbuf]
    · have hne : st.conversation_buffer ≠ [] := by
        intro hc; rw [hc] at hbuf; simp at hbuf
      have hslice := pySliceLast_ne_nil 5 st.conversation_buffer hne
      simp [hrel, hbuf, hne, hslice, List.isEmpty_iff]
  · unfold getIntentDescription
    cases hl : List.lookup intentType descTable with
    | none => simp
    | some v =>
      have hv := lookup_mem hl
      have hall : ∀ p ∈ descTable, p.2 ≠ "" := by decide
      have hne := hall _ hv
      simpa using hne


/-- Totality of the code-point lexicographic comparison. -/
theorem chLe_total : ∀ (as bs : List Char), (chLe as bs || chLe bs as) = true := by
  intro as
  induction as with
  | nil => intro bs; simp [chLe]
  | cons a ta ih =>
    intro bs
    cases bs with
    | nil => simp [chLe]
    | cons b tb =>
      simp only [chLe]
      by_cases h1 : a.toNat < b.toNat
      · rw [if_pos h1]; simp
      · by_cases h2 : b.toNat < a.toNat
        · rw [if_neg h1, if_pos h2, if_pos h2]; simp
        · rw [if_neg h1, if_neg h2, if_neg h2, if_neg h1]
          exact ih tb

/-- Transitivity of the code-point lexicographic comparison. -/
theorem chLe_trans : ∀ (as bs cs : List Char),
    chLe as bs = true → chLe bs cs = true → chLe as cs = true := by
  intro as
  induction as with
  | nil => intro bs cs h1 h2; simp [chLe]
  | cons a ta ih =>
    intro bs cs h1 h2
    cases bs with
    | nil => simp [chLe] at h1
    | cons b tb =>
      cases cs with
      | nil => simp [chLe] at h2
      | cons c tc =>
        simp only [chLe] at h1 h2 ⊢
        by_cases hab : a.toNat < b.toNat <;> by_cases hbc : b.toNat < c.toNat
        · rw [if_pos (Nat.lt_trans hab hbc)]
        · by_cases hcb : c.toNat < b.toNat
          · rw [if_neg hbc, if_pos hcb] at h2
            exact absurd h2 (by simp)
          · rw [if_pos (by omega : a.toNat < c.toNat)]
        · by_cases hba : b.toNat < a.toNat
          · rw [if_neg hab, if_pos hba] at h1
            exact absurd h1 (by simp)
          · rw [if_pos (by omega : a.toNat < c.toNat)]
        · by_cases hba : b.toNat < a.toNat
          · rw [if_neg hab, if_pos hba] at h1
            exact absurd h1 (by simp)
          · by_cases hcb : c.toNat < b.toNat
            · rw [if_neg hbc, if_pos hcb] at h2
              exact absurd h2 (by simp)
            · rw [if_neg hab, if_neg hba] at h1
              rw [if_neg hbc, if_neg hcb] at h2
              rw [if_neg (by omega : ¬ a.toNat < c.toNat),
                if_neg (by omega : ¬ c.toNat < a.toNat)]
              exact ih tb tc h1 h2

/-- The timestamp sort of `get_recent_memories` produces a
newest-first-sorted prefix, for any cut length. -/
theorem mergeTake_sorted (l : List StoredEntry) (lim : Nat) :
    List.Pairwise (fun a b => lexLe (tsKeyOf b) (tsKeyOf a))
      ((l.mergeSort (fun a b => chLe (tsKeyOf b).data (tsKeyOf a).data)).take lim) := by
  have hs := @List.sorted_mergeSort StoredEntry
    (fun a b => chLe (tsKeyOf b).data (tsKeyOf a).data)
    (fun a b c h1 h2 => chLe_trans _ _ _ h2 h1)
    (fun a b => chLe_total (tsKeyOf b).data (tsKeyOf a).data) l
  exact List.Pairwise.sublist (List.take_sublist _ _) hs

/-- Elements of the sorted-and-truncated list come from the input. -/
theorem mem_mergeTake (l : List StoredEntry) (lim : Nat) (e : StoredEntry)
    (he : e ∈ (l.mergeSort (fun a b => chLe (tsKeyOf b).data (tsKeyOf a).data)).take lim) :
    e ∈ l := by
  have h1 := List.take_subset _ _ he
  exact (List.mergeSort_perm l _).subset h1

/-- C7: for every store contents, `get_recent_memories` returns at most
`limit` entries, sorted by the metadata timestamp newest first (code-point
lexicographic order on the ISO strings, `lexLe`), all drawn from the store
and — when a category is requested — all of that category. -/
theorem recent_memories_sorted_filtered_truncated (entries : List StoredEntry)
    (catO : Option String) (lim : Nat) :
    (getRecentMemories ⟨some entries, [], 50⟩ (.ok entries) catO lim).length ≤ lim
    ∧ List.Pairwise (fun a b => lexLe (tsKeyOf b) (tsKeyOf a))
        (getRecentMemories ⟨some entries, [], 50⟩ (.ok entries) catO lim)
    ∧ ∀ e ∈ getRecentMemories ⟨some entries, [], 50⟩ (.ok entries) catO lim,
        e ∈ entries ∧ ∀ c, catO = some c → e.metadata.category = some c := by
  cases catO with
  | none =>
    refine ⟨?_, ?_, ?_⟩
    · simp only [getRecentMemories]
      exact List.length_take_le _ _
    · exact mergeTake_sorted entries lim
    · intro e he
      refine ⟨mem_mergeTake entries lim e he, ?_⟩
      intro c hc
      exact absurd hc (by simp)
  | some c0 =>
    refine ⟨?_, ?_, ?_⟩
    · simp only [getRecentMemories]
      exact List.length_take_le _ _
    · exact mergeTake_sorted _ lim
    · intro e he
      have hmem := mem_mergeTake _ lim e he
      rw [List.mem_filter] at hmem
      refine ⟨hmem.1, ?_⟩
      intro c hc
      have := hmem.2
      simp only [beq_iff_eq] at this
      rw [← Option.some.inj hc]
      exact this


/-- The exact cross-multiplied comparison agrees with the rational order of
the fractions, for positive denominators. -/
theorem fracGt_iff (a b : Nat × Nat) (ha : 0 < a.2) (hb : 0 < b.2) :
    fracGt a b = true ↔ fracQ b < fracQ a := by
  unfold fracGt fracQ
  rw [decide_eq_true_iff]
  rw [div_lt_div_iff₀ (by exact_mod_cast hb) (by exact_mod_cast ha)]
  constructor <;> intro h <;> exact_mod_cast h

/-- Fractions are nonnegative. -/
theorem fracQ_nonneg (p : Nat × Nat) : 0 ≤ fracQ p := by
  unfold fracQ
  positivity

/-- Comparing two ratios over the same positive denominator is comparing
the numerators. -/
theorem fracGt_common (T : Nat) (hT : 0 < T) (l n : Nat) :
    fracGt (l, T) (n, T) = decide (n < l) := by
  unfold fracGt
  exact decide_eq_decide.mpr (Nat.mul_lt_mul_right hT)

/-- Comparing a ratio with the initial `best_confidence = 0.0`. -/
theorem fracGt_init (l T : Nat) : fracGt (l, T) (0, 1) = decide (0 < l) := by
  unfold fracGt
  simp

/-- Unrolling one step of the best-match fold. -/
theorem bestFold_cons (t : String) (acc : Option PatternBest × (Nat × Nat))
    (im0 : String × ReMatch) (ms : List (String × ReMatch)) :
    bestFold t acc (im0 :: ms)
      = bestFold t
          (if fracGt (matchLen im0, t.length) acc.2
           then (some ⟨im0.1, im0.2.group0, im0.2.groups⟩, (matchLen im0, t.length))
           else acc) ms := rfl

/-- The double loop of `_check_pattern_matches` is the best-match fold over
the matches the oracle yields, in catalog order. -/
theorem foldl_patternStep (rs : String → String → Option ReMatch) (t : String) :
    ∀ (l : List (String × String)) (acc : Option PatternBest × (Nat × Nat)),
      l.foldl (patternStep rs t) acc = bestFold t acc (matchedOf rs t l) := by
  intro l
  induction l with
  | nil => intro acc; rfl
  | cons p l2 ih =>
    intro acc
    rw [List.foldl_cons]
    cases hm : rs p.2 t with
    | none =>
      have h1 : patternStep rs t acc p = acc := by simp [patternStep, hm]
      have h2 : matchedOf rs t (p :: l2) = matchedOf rs t l2 := by
        simp [matchedOf, List.filterMap_cons, hm]
      rw [h1, h2, ih]
    | some m =>
      have h2 : matchedOf rs t (p :: l2) = (p.1, m) :: matchedOf rs t l2 := by
        simp [matchedOf, List.filterMap_cons, hm]
      rw [h2, bestFold_cons, ih]
      congr 1
      simp [patternStep, hm, matchLen]

/-- Every match length is bounded by the maximum. -/
theorem le_maxLen : ∀ (ms : List (String × ReMatch)) (x : String × ReMatch),
    x ∈ ms → matchLen x ≤ maxLen ms := by
  intro ms
  induction ms with
  | nil => intro x hx; simp at hx
  | cons a l ih =>
    intro x hx
    rcases List.mem_cons.mp hx with h | h
    · subst h; exact le_max_left _ _
    · exact le_trans (ih x h) (le_max_right _ _)

/-- If nothing beats the accumulator, the fold keeps it. -/
theorem bestFold_no_improve (t : String) (hT : 0 < t.length) :
    ∀ (ms : List (String × ReMatch)) (acc : Option PatternBest × (Nat × Nat)),
      (acc.2 = (0, 1) ∨ acc.2.2 = t.length) →
      (∀ im ∈ ms, matchLen im ≤ acc.2.1) →
      bestFold t acc ms = acc := by
  intro ms
  induction ms with
  | nil => intro acc _ _; rfl
  | cons im0 ms2 ih =>
    intro acc hinv hle
    have hcond : fracGt (matchLen im0, t.length) acc.2 = false := by
      rcases hinv with h | h
      · rw [h, fracGt_init]
        have h0 := hle im0 (by simp)
        rw [h] at h0
        simp only [] at h0
        simp
        omega
      · have hacc : acc.2 = (acc.2.1, t.length) := by rw [← h]
        rw [hacc, fracGt_common _ hT]
        have h0 := hle im0 (by simp)
        simp
        omega
    rw [bestFold_cons, hcond]
    simp only [Bool.false_eq_true, if_false]
    exact ih acc hinv (fun x hx => hle x (by simp [hx]))

/-- The strict-improvement fold lands on the first match of maximal length
(when something beats the accumulator). -/
theorem bestFold_argmax (t : String) (hT : 0 < t.length) :
    ∀ (ms : List (String × ReMatch)) (acc : Option PatternBest × (Nat × Nat)),
      (acc.2 = (0, 1) ∨ acc.2.2 = t.length) →
      acc.2.1 < maxLen ms →
      ∃ im, ms.find? (fun x => matchLen x == maxLen ms) = some im
        ∧ bestFold t acc ms
            = (some ⟨im.1, im.2.group0, im.2.groups⟩, (matchLen im, t.length)) := by
  intro ms
  induction ms with
  | nil =>
    intro acc _ hlt
    simp [maxLen] at hlt
  | cons im0 ms2 ih =>
    intro acc hinv hlt
    have hmax : maxLen (im0 :: ms2) = max (matchLen im0) (maxLen ms2) := rfl
    have hcond : fracGt (matchLen im0, t.length) acc.2 = decide (acc.2.1 < matchLen im0) := by
      rcases hinv with h | h
      · rw [h, fracGt_init]
      · have hacc : acc.2 = (acc.2.1, t.length) := by rw [← h]
        rw [hacc, fracGt_common _ hT]
    by_cases hc : acc.2.1 < matchLen im0
    · have hstep : bestFold t acc (im0 :: ms2)
          = bestFold t (some ⟨im0.1, im0.2.group0, im0.2.groups⟩,
              (matchLen im0, t.length)) ms2 := by
        rw [bestFold_cons, hcond]
        simp [hc]
      rcases le_or_lt (maxLen ms2) (matchLen im0) with hle2 | hgt2
      · have hM : maxLen (im0 :: ms2) = matchLen im0 := by
          rw [hmax]; exact max_eq_left hle2
        refine ⟨im0, ?_, ?_⟩
        · have hp : (matchLen im0 == maxLen (im0 :: ms2)) = true := by
            rw [hM]; simp
          simp only [List.find?_cons, hp]
        · rw [hstep, bestFold_no_improve t hT ms2 _ (Or.inr rfl) ?_]
          intro x hx
          exact le_trans (le_maxLen ms2 x hx) hle2
      · have hM : maxLen (im0 :: ms2) = maxLen ms2 := by
          rw [hmax]; exact max_eq_right (le_of_lt hgt2)
        have hp : (matchLen im0 == maxLen (im0 :: ms2)) = false := by
          rw [hM]; simp; omega
        obtain ⟨im, hfind, hfold⟩ := ih
          (some ⟨im0.1, im0.2.group0, im0.2.groups⟩, (matchLen im0, t.length))
          (Or.inr rfl) (by simpa using hgt2)
        refine ⟨im, ?_, ?_⟩
        · simp only [List.find?_cons, hp]
          rw [hM]
          exact hfind
        · rw [hstep, hfold]
    · have hstep : bestFold t acc (im0 :: ms2) = bestFold t acc ms2 := by
        rw [bestFold_cons, hcond]
        simp [hc]
      have hle0 : matchLen im0 ≤ acc.2.1 := Nat.le_of_not_lt hc
      have hlt2 : acc.2.1 < maxLen ms2 := by
        rcases lt_max_iff.mp (hmax ▸ hlt) with h | h
        · omega
        · exact h
      have hM : maxLen (im0 :: ms2) = maxLen ms2 := by
        rw [hmax]
        exact max_eq_right (le_of_lt (lt_of_le_of_lt hle0 hlt2))
      have hp : (matchLen im0 == maxLen (im0 :: ms2)) = false := by
        rw [hM]; simp; omega
      obtain ⟨im, hfind, hfold⟩ := ih acc hinv hlt2
      refine ⟨im, ?_, ?_⟩
      · simp only [List.find?_cons, hp]
        rw [hM]
        exact hfind
      · rw [hstep, hfold]

/-- A found element splits the list, with the predicate false before it. -/
theorem find?_split {α : Type} (p : α → Bool) :
    ∀ (l : List α) (a : α), l.find? p = some a →
      ∃ l1 l2, l = l1 ++ a :: l2 ∧ ∀ x ∈ l1, p x = false := by
  intro l
  induction l with
  | nil => intro a h; simp at h
  | cons b l2 ih =>
    intro a h
    rw [List.find?_cons] at h
    cases hb : p b with
    | true =>
      rw [hb] at h
      refine ⟨[], l2, ?_, by simp⟩
      simp [Option.some.inj h]
    | false =>
      rw [hb] at h
      obtain ⟨l1, l3, heq, hfalse⟩ := ih a h
      refine ⟨b :: l1, l3, by rw [heq]; rfl, ?_⟩
      intro x hx
      rcases List.mem_cons.mp hx with h1 | h1
      · subst h1; exact hb
      · exact hfalse x h1

/-- The maximal ratio is the maximal match length over the text length. -/
theorem maxRatio_eq (t : String) (ms : List (String × ReMatch)) :
    maxRatio t ms = (maxLen ms : ℚ) / (t.length : ℚ) := by
  induction ms with
  | nil => simp [maxRatio, maxLen]
  | cons im ms2 ih =>
    show max (ratioQ t im.2) (maxRatio t ms2) = _
    rw [ih]
    show max ((matchLen im : ℚ) / (t.length : ℚ)) _ = ((max (matchLen im) (maxLen ms2) : Nat) : ℚ) / _
    by_cases hT : (t.length : ℚ) = 0
    · simp [hT]
    · have hT2 : (0 : ℚ) < (t.length : ℚ) :=
        lt_of_le_of_ne (by positivity) (Ne.symm hT)
      rw [max_div_div_right (le_of_lt hT2)]
      congr 1
      exact (Nat.cast_max _ _).symm


/-- C1: when the exact tier misses and at least one catalog pattern matches
(with a non-empty match, as every catalog regex requires at least one
character), `parse_intent` classifies by the first pattern, in catalog
iteration order, whose matched substring attains the maximal ratio
`len(match)/len(text)`; the ratio is then discarded in favour of the flat
confidence 0.8.  The chosen match attains the maximal ratio, weakly
dominates every match, and strictly dominates every match evaluated before
it (ties resolve to the earliest). -/
theorem pattern_tier_selection (rs : String → String → Option ReMatch)
    (fa : String → String → List (List String)) (input : String)
    (hex : checkExactMatches (normalize input) = none)
    (hT : 0 < (normalize input).length)
    (hM : 0 < maxLen (matchedPatterns rs (normalize input))) :
    ∃ im, (matchedPatterns rs (normalize input)).find?
        (fun x => matchLen x == maxLen (matchedPatterns rs (normalize input))) = some im
      ∧ (parseIntent rs fa input).type = im.1
      ∧ (parseIntent rs fa input).confidence = 8/10
      ∧ (parseIntent rs fa input).pmatch = some im.2.group0
      ∧ ratioQ (normalize input) im.2
          = maxRatio (normalize input) (matchedPatterns rs (normalize input))
      ∧ (∀ x ∈ matchedPatterns rs (normalize input),
          ratioQ (normalize input) x.2 ≤ ratioQ (normalize input) im.2)
      ∧ ∃ pre post, matchedPatterns rs (normalize input) = pre ++ im :: post
          ∧ ∀ x ∈ pre, ratioQ (normalize input) x.2 < ratioQ (normalize input) im.2 := by
  obtain ⟨im, hfind, hfold⟩ := bestFold_argmax (normalize input) hT
    (matchedPatterns rs (normalize input)) (none, (0, 1)) (Or.inl rfl) hM
  have hcheck : checkPatternMatches rs (normalize input)
      = some ⟨im.1, im.2.group0, im.2.groups⟩ := by
    unfold checkPatternMatches
    rw [foldl_patternStep rs (normalize input) catalogPairs (none, (0, 1))]
    rw [show matchedOf rs (normalize input) catalogPairs
        = matchedPatterns rs (normalize input) from rfl, hfold]
  have hlen : matchLen im = maxLen (matchedPatterns rs (normalize input)) := by
    have hp := List.find?_some hfind
    simpa using hp
  have hT2 : (0 : ℚ) < ((normalize input).length : ℚ) := by exact_mod_cast hT
  refine ⟨im, hfind, ?_, ?_, ?_, ?_, ?_, ?_⟩
  · simp [parseIntent, hex, hcheck]
  · simp only [parseIntent, hex, hcheck]
    rfl
  · simp [parseIntent, hex, hcheck]
  · rw [maxRatio_eq, ← hlen]
    rfl
  · intro x hx
    have h1 : matchLen x ≤ matchLen im := by
      rw [hlen]
      exact le_maxLen _ x hx
    unfold ratioQ
    rw [div_le_div_iff_of_pos_right hT2]
    exact_mod_cast h1
  · obtain ⟨pre, post, hsplit, hfalse⟩ := find?_split _ _ _ hfind
    refine ⟨pre, post, hsplit, ?_⟩
    intro x hx
    have hxm : x ∈ matchedPatterns rs (normalize input) := by
      rw [hsplit]
      exact List.mem_append.mpr (Or.inl hx)
    have hle : matchLen x ≤ maxLen (matchedPatterns rs (normalize input)) :=
      le_maxLen _ x hxm
    have hne : matchLen x ≠ maxLen (matchedPatterns rs (normalize input)) := by
      simpa using hfalse x hx
    have hlt : matchLen x < matchLen im := by
      rw [hlen]
      omega
    unfold ratioQ
    rw [div_lt_div_iff_of_pos_right hT2]
    exact_mod_cast hlt

/-- Witness for C1: a single help-request pattern matches "assist" inside a
27-character text; the router classifies help_request at confidence 0.8. -/
theorem pattern_tier_selection_witness :
    checkExactMatches (normalize "can you ASSIST me with this") = none
    ∧ 0 < maxLen (matchedPatterns
        (fun p u => if p == "(help|assist|support)" && u == "can you assist me with this"
                    then some ⟨"assist", ["assist"]⟩ else none)
        (normalize "can you ASSIST me with this"))
    ∧ (parseIntent
        (fun p u => if p == "(help|assist|support)" && u == "can you assist me with this"
                    then some ⟨"assist", ["assist"]⟩ else none)
        (fun _ _ => []) "can you ASSIST me with this").type = "help_request"
    ∧ (parseIntent
        (fun p u => if p == "(help|assist|support)" && u == "can you assist me with this"
                    then some ⟨"assist", ["assist"]⟩ else none)
        (fun _ _ => []) "can you ASSIST me with this").confidence = 8/10 := by
  have h := pattern_tier_selection
    (fun p u => if p == "(help|assist|support)" && u == "can you assist me with this"
                then some ⟨"assist", ["assist"]⟩ else none)
    (fun _ _ => []) "can you ASSIST me with this" (by decide) (by decide) (by decide)
  obtain ⟨im, hfind, hty, hconf, _⟩ := h
  have hfind2 : (matchedPatterns
      (fun p u => if p == "(help|assist|support)" && u == "can you assist me with this"
                  then some ⟨"assist", ["assist"]⟩ else none)
      (normalize "can you ASSIST me with this")).find?
        (fun x => matchLen x == maxLen (matchedPatterns
          (fun p u => if p == "(help|assist|support)" && u == "can you assist me with this"
                      then some ⟨"assist", ["assist"]⟩ else none)
          (normalize "can you ASSIST me with this")))
      = some ("help_request", ⟨"assist", ["assist"]⟩) := by decide
  rw [hfind] at hfind2
  have him : im = ("help_request", ⟨"assist", ["assist"]⟩) := Option.some.inj hfind2
  refine ⟨by decide, by decide, ?_, hconf⟩
  rw [hty, him]


/-- The keyword count never exceeds the number of configured keywords. -/
theorem countKeywords_le (t : String) (kws : List String) :
    countKeywords t kws ≤ kws.length := by
  have haux : ∀ (l : List String) (n : Nat),
      l.foldl (fun s k => if pyIn k t then s + 1 else s) n ≤ n + l.length := by
    intro l
    induction l with
    | nil => intro n; simp
    | cons k l2 ih =>
      intro n
      rw [List.foldl_cons]
      by_cases hk : pyIn k t = true
      · simp only [hk, if_true, List.length_cons]
        have h2 := ih (n + 1)
        omega
      · simp only [Bool.not_eq_true] at hk
        simp only [hk, Bool.false_eq_true, if_false, List.length_cons]
        have h2 := ih n
        omega
  have h := haux kws 0
  simpa [countKeywords] using h

/-- Shape of the keyword fold: either nothing scored and the accumulator
survives, or the result is some table entry with its score and keyword
count, the score positive. -/
theorem kwFold_shape (t : String) :
    ∀ (l : List (String × List String)) (acc : Option String × (Nat × Nat)),
      l.foldl (kwStep t) acc = acc
      ∨ ∃ p ∈ l, l.foldl (kwStep t) acc = (some p.1, (countKeywords t p.2, p.2.length))
          ∧ 1 ≤ countKeywords t p.2 := by
  intro l
  induction l with
  | nil => intro acc; left; rfl
  | cons p l2 ih =>
    intro acc
    rw [List.foldl_cons]
    by_cases hs : 0 < countKeywords t p.2
    · by_cases hg : fracGt (countKeywords t p.2, p.2.length) acc.2 = true
      · have hstep : kwStep t acc p = (some p.1, (countKeywords t p.2, p.2.length)) := by
          simp [kwStep, hs, hg]
        rw [hstep]
        rcases ih (some p.1, (countKeywords t p.2, p.2.length)) with h | ⟨q, hq, heq, hkq⟩
        · right; exact ⟨p, by simp, h, hs⟩
        · right; exact ⟨q, by simp [hq], heq, hkq⟩
      · have hstep : kwStep t acc p = acc := by simp [kwStep, hs, hg]
        rw [hstep]
        rcases ih acc with h | ⟨q, hq, heq, hkq⟩
        · left; exact h
        · right; exact ⟨q, by simp [hq], heq, hkq⟩
    · have hstep : kwStep t acc p = acc := by simp [kwStep, hs]
      rw [hstep]
      rcases ih acc with h | ⟨q, hq, heq, hkq⟩
      · left; exact h
      · right; exact ⟨q, by simp [hq], heq, hkq⟩

/-- The keyword fold never decreases the running best score. -/
theorem kwFold_mono (t : String) :
    ∀ (l : List (String × List String)) (acc : Option String × (Nat × Nat)),
      (∀ p ∈ l, 0 < p.2.length) → 0 < acc.2.2 →
      fracQ acc.2 ≤ fracQ (l.foldl (kwStep t) acc).2 := by
  intro l
  induction l with
  | nil => intro acc _ _; exact le_refl _
  | cons p l2 ih =>
    intro acc hden hacc
    rw [List.foldl_cons]
    by_cases hs : 0 < countKeywords t p.2
    · by_cases hg : fracGt (countKeywords t p.2, p.2.length) acc.2 = true
      · have hstep : kwStep t acc p = (some p.1, (countKeywords t p.2, p.2.length)) := by
          simp [kwStep, hs, hg]
        rw [hstep]
        have hlt : fracQ acc.2 < fracQ (countKeywords t p.2, p.2.length) :=
          (fracGt_iff (countKeywords t p.2, p.2.length) acc.2 (hden p (by simp)) hacc).mp hg
        have hrest := ih (some p.1, (countKeywords t p.2, p.2.length))
          (fun q hq => hden q (by simp [hq])) (hden p (by simp))
        exact le_trans (le_of_lt hlt) hrest
      · have hstep : kwStep t acc p = acc := by simp [kwStep, hs, hg]
        rw [hstep]
        exact ih acc (fun q hq => hden q (by simp [hq])) hacc
    · have hstep : kwStep t acc p = acc := by simp [kwStep, hs]
      rw [hstep]
      exact ih acc (fun q hq => hden q (by simp [hq])) hacc

/-- The final best score dominates every normalized per-intent score. -/
theorem kwFold_cover (t : String) :
    ∀ (l : List (String × List String)) (acc : Option String × (Nat × Nat)),
      (∀ p ∈ l, 0 < p.2.length) → 0 < acc.2.2 →
      ∀ p ∈ l, kwScoreQ t p ≤ fracQ (l.foldl (kwStep t) acc).2 := by
  intro l
  induction l with
  | nil => intro acc _ _ p hp; simp at hp
  | cons q l2 ih =>
    intro acc hden hacc p hp
    rw [List.foldl_cons]
    rcases List.mem_cons.mp hp with hph | hpt
    · subst hph
      by_cases hs : 0 < countKeywords t p.2
      · by_cases hg : fracGt (countKeywords t p.2, p.2.length) acc.2 = true
        · have hstep : kwStep t acc p = (some p.1, (countKeywords t p.2, p.2.length)) := by
            simp [kwStep, hs, hg]
          rw [hstep]
          exact kwFold_mono t l2 (some p.1, (countKeywords t p.2, p.2.length))
            (fun r hr => hden r (by simp [hr])) (hden p (by simp))
        · have hstep : kwStep t acc p = acc := by simp [kwStep, hs, hg]
          rw [hstep]
          have hle : kwScoreQ t p ≤ fracQ acc.2 := by
            have hnot : ¬ fracQ acc.2 < fracQ (countKeywords t p.2, p.2.length) := by
              intro hcon
              exact absurd ((fracGt_iff (countKeywords t p.2, p.2.length) acc.2
                (hden p (by simp)) hacc).mpr hcon) (by simpa using hg)
            exact not_lt.mp hnot
          exact le_trans hle
            (kwFold_mono t l2 acc (fun r hr => hden r (by simp [hr])) hacc)
      · have hstep : kwStep t acc p = acc := by simp [kwStep, hs]
        rw [hstep]
        have h0 : countKeywords t p.2 = 0 := by omega
        have hz : kwScoreQ t p = 0 := by simp [kwScoreQ, h0]
        rw [hz]
        exact le_trans (fracQ_nonneg acc.2)
          (kwFold_mono t l2 acc (fun r hr => hden r (by simp [hr])) hacc)
    · by_cases hs : 0 < countKeywords t q.2
      · by_cases hg : fracGt (countKeywords t q.2, q.2.length) acc.2 = true
        · have hstep : kwStep t acc q = (some q.1, (countKeywords t q.2, q.2.length)) := by
            simp [kwStep, hs, hg]
          rw [hstep]
          exact ih (some q.1, (countKeywords t q.2, q.2.length))
            (fun r hr => hden r (by simp [hr])) (hden q (by simp)) p hpt
        · have hstep : kwStep t acc q = acc := by simp [kwStep, hs, hg]
          rw [hstep]
          exact ih acc (fun r hr => hden r (by simp [hr])) hacc p hpt
      · have hstep : kwStep t acc q = acc := by simp [kwStep, hs]
        rw [hstep]
        exact ih acc (fun r hr => hden r (by simp [hr])) hacc p hpt

/-- The initial best score is zero. -/
theorem fracQ_init : fracQ (0, 1) = 0 := by
  simp [fracQ]

/-- The threshold as a fraction pair. -/
theorem fracQ_three_ten : fracQ (3, 10) = 3/10 := by
  norm_num [fracQ]

/-- No score over a 4-, 5- or 6-element keyword list equals 3/10 exactly. -/
theorem score_ne_threshold (k n : Nat) (hn : n = 4 ∨ n = 5 ∨ n = 6) :
    fracQ (k, n) ≠ 3/10 := by
  intro h
  have hn0 : ((n : ℚ)) ≠ 0 := by rcases hn with h2 | h2 | h2 <;> simp [h2]
  unfold fracQ at h
  rw [div_eq_div_iff hn0 (by norm_num)] at h
  have hnat : k * 10 = 3 * n := by exact_mod_cast h
  rcases hn with h2 | h2 | h2 <;> omega

/-- Every intent of the keyword table has 4, 5 or 6 keywords. -/
theorem keywordTable_lens :
    ∀ p ∈ keywordTable, p.2.length = 4 ∨ p.2.length = 5 ∨ p.2.length = 6 := by
  decide

/-- Every intent of the keyword table has at least one keyword. -/
theorem keywordTable_den_pos : ∀ p ∈ keywordTable, 0 < p.2.length := by
  decide


/-- C2: with the exact and pattern tiers missing, the keyword tier of
`parse_intent` returns the intent with the highest normalized keyword score
at flat confidence 0.6 whenever the best score is at least 0.3, and yields
no match whenever the best score is at most 0.3.  The two statements are
consistent because the code tests the strict `best_score > 0.3` and a best
score of exactly 3/10 is unattainable: every normalized score is a count
over a 4-, 5- or 6-element keyword list. -/
theorem keyword_tier_threshold (rs : String → String → Option ReMatch)
    (fa : String → String → List (List String)) (input : String)
    (hex : checkExactMatches (normalize input) = none)
    (hpat : checkPatternMatches rs (normalize input) = none) :
    fracQ (keywordFold (normalize input)).2 ≠ 3/10
    ∧ (3/10 ≤ fracQ (keywordFold (normalize input)).2 →
        ∃ it, (keywordFold (normalize input)).1 = some it
          ∧ (parseIntent rs fa input).type = it
          ∧ (parseIntent rs fa input).confidence = 6/10
          ∧ ∀ p ∈ keywordTable,
              kwScoreQ (normalize input) p ≤ fracQ (keywordFold (normalize input)).2)
    ∧ (fracQ (keywordFold (normalize input)).2 ≤ 3/10 →
        checkKeywordMatches (normalize input) = none
        ∧ (parseIntent rs fa input).type = "unknown"
        ∧ (parseIntent rs fa input).confidence = 0) := by
  have hshape := kwFold_shape (normalize input) keywordTable (none, (0, 1))
  have hne : fracQ (keywordFold (normalize input)).2 ≠ 3/10 := by
    rcases hshape with h0 | ⟨p, hp, heq, hk⟩
    · have hkf : keywordFold (normalize input) = (none, (0, 1)) := h0
      rw [hkf, fracQ_init]
      norm_num
    · have hkf : keywordFold (normalize input)
          = (some p.1, (countKeywords (normalize input) p.2, p.2.length)) := heq
      rw [hkf]
      exact score_ne_threshold _ _ (keywordTable_lens p hp)
  refine ⟨hne, ?_, ?_⟩
  · intro hge
    rcases hshape with h0 | ⟨p, hp, heq, hk⟩
    · have hkf : keywordFold (normalize input) = (none, (0, 1)) := h0
      rw [hkf, fracQ_init] at hge
      norm_num at hge
    · have hkf : keywordFold (normalize input)
          = (some p.1, (countKeywords (normalize input) p.2, p.2.length)) := heq
      have hgt : 3/10 < fracQ (keywordFold (normalize input)).2 :=
        lt_of_le_of_ne hge (Ne.symm hne)
      have hden : 0 < (keywordFold (normalize input)).2.2 := by
        rw [hkf]
        exact keywordTable_den_pos p hp
      have hfgt : fracGt (keywordFold (normalize input)).2 (3, 10) = true := by
        rw [fracGt_iff _ _ hden (by norm_num), fracQ_three_ten]
        exact hgt
      have hck : checkKeywordMatches (normalize input)
          = some (p.1, (keywordFold (normalize input)).2) := by
        rw [hkf] at hfgt
        unfold checkKeywordMatches
        rw [hkf]
        simp [hfgt]
      refine ⟨p.1, by rw [hkf], ?_, ?_, ?_⟩
      · simp [parseIntent, hex, hpat, hck]
      · simp only [parseIntent, hex, hpat, hck]
        rfl
      · intro q hq
        exact kwFold_cover (normalize input) keywordTable (none, (0, 1))
          keywordTable_den_pos (by norm_num) q hq
  · intro hle
    have hnone : checkKeywordMatches (normalize input) = none := by
      rcases hshape with h0 | ⟨p, hp, heq, hk⟩
      · have hkf : keywordFold (normalize input) = (none, (0, 1)) := h0
        unfold checkKeywordMatches
        rw [hkf]
      · have hkf : keywordFold (normalize input)
            = (some p.1, (countKeywords (normalize input) p.2, p.2.length)) := heq
        have hden : 0 < (keywordFold (normalize input)).2.2 := by
          rw [hkf]
          exact keywordTable_den_pos p hp
        have hf : fracGt (keywordFold (normalize input)).2 (3, 10) = false := by
          have hcon : ¬ fracGt (keywordFold (normalize input)).2 (3, 10) = true := by
            intro hcon
            have h2 := (fracGt_iff _ _ hden (by norm_num)).mp hcon
            rw [fracQ_three_ten] at h2
            exact absurd h2 (not_lt.mpr hle)
          simpa using hcon
        rw [hkf] at hf
        unfold checkKeywordMatches
        rw [hkf]
        simp [hf]
    refine ⟨hnone, ?_, ?_⟩
    · simp [parseIntent, hex, hpat, hnone]
    · simp [parseIntent, hex, hpat, hnone]

/-- Witness for C2: "open the app program now" scores 3/6 on open_app with
no other intent scoring, so the keyword tier fires at confidence 0.6; the
best score 1/2 is not 3/10. -/
theorem keyword_tier_threshold_witness :
    fracQ (keywordFold (normalize "open the app program now")).2 ≠ 3/10
    ∧ (parseIntent (fun _ _ => none) (fun _ _ => [])
        "open the app program now").type = "open_app"
    ∧ (parseIntent (fun _ _ => none) (fun _ _ => [])
        "open the app program now").confidence = 6/10 := by
  have h := keyword_tier_threshold (fun _ _ => none) (fun _ _ => [])
    "open the app program now" (by decide) (by decide)
  have hbs : (keywordFold (normalize "open the app program now")).2 = (3, 6) := by decide
  have hge : 3/10 ≤ fracQ (keywordFold (normalize "open the app program now")).2 := by
    rw [hbs]
    norm_num [fracQ]
  obtain ⟨it, hit, hty, hconf, _⟩ := h.2.1 hge
  have hit2 : (keywordFold (normalize "open the app program now")).1 = some "open_app" := by
    decide
  rw [hit] at hit2
  have hit3 : it = "open_app" := Option.some.inj hit2
  exact ⟨h.1, hit3 ▸ hty, hconf⟩

end Jarvis
